import Mathlib

/-!
Verification development for the Graph Analytics & Force-Directed Layout
Engine of the pakistan-economic-observatory application (src/src/App.tsx).

The centrality engine (`calculateCentrality`, App.tsx lines 65-155) is
modelled over exact rationals: every arithmetic operation the source
performs on IEEE doubles is a field operation, so `ℚ` is the faithful
exact-arithmetic counterpart.  The two JavaScript-specific numeric
phenomena the source can exhibit are modelled explicitly:

* `QDist` models a JavaScript number that is either finite or `Infinity`
  (the shortest-path table is initialised with `Infinity`); its addition
  and `<` follow IEEE semantics on `[0, ∞]` (no NaN can arise there).
* `JsNum` models the result of a JavaScript division that may divide by
  zero: `x / 0` is `Infinity` for `x > 0`, `-Infinity` for `x < 0` and
  `NaN` for `x = 0`.

The eigenvector-centrality stage (power iteration, lines 138-152) uses
`Math.sqrt`, so it is modelled over `ℝ` with `Real.sqrt`.

Mutable arrays of the source are modelled as functions `Fin n → _`
updated pointwise; the in-place sequential update order of the
Floyd-Warshall triple loop is preserved by left folds over
`List.finRange n`.
-/

/- The Batteries rational-number operations are `@[irreducible]`, which
blocks `decide` on concrete rational computations; restore the default
reducibility for them in this file. -/
attribute [local semireducible] Rat.add Rat.mul Rat.inv Rat.sub

set_option maxRecDepth 40000

/-- A JavaScript number arising as a division result: finite, `Infinity`,
`-Infinity`, or `NaN`. -/
inductive JsNum : Type
  | num (q : ℚ)
  | posInf
  | negInf
  | nan
deriving DecidableEq

/-- JavaScript division of two (exactly represented) numbers: division by
zero yields `Infinity` / `-Infinity` / `NaN` according to the sign of the
numerator, matching IEEE-754 semantics of `a / 0`. -/
def jsDiv (a b : ℚ) : JsNum :=
  if b = 0 then
    if 0 < a then JsNum.posInf else if a < 0 then JsNum.negInf else JsNum.nan
  else
    JsNum.num (a / b)

/-- An entry of the shortest-path cost table: a finite cost or `Infinity`
(the table is initialised with `Array(n).fill(Infinity)`, App.tsx line 83). -/
inductive QDist : Type
  | fin (q : ℚ)
  | inf
deriving DecidableEq

/-- IEEE addition restricted to finite values and `Infinity`:
`Infinity + x = x + Infinity = Infinity`. -/
def QDist.add : QDist → QDist → QDist
  | QDist.fin a, QDist.fin b => QDist.fin (a + b)
  | _, _ => QDist.inf

/-- IEEE `<` restricted to finite values and `Infinity`:
`Infinity < x` is false, `x < Infinity` is true for finite `x`. -/
def QDist.lt : QDist → QDist → Bool
  | QDist.fin a, QDist.fin b => decide (a < b)
  | QDist.fin _, QDist.inf => true
  | QDist.inf, _ => false

/-- Degree centrality (App.tsx lines 72-79): for node `i`, the sum of the
whole row `i` (the self-entry `matrix[i][i]` included, exactly as the
source sums `j = 0 .. n-1`) divided by `n - 1` with JavaScript division
semantics (for `n = 1` the divisor is `0`). -/
def degree (n : ℕ) (m : Fin n → Fin n → ℚ) : Fin n → JsNum :=
  fun i => jsDiv (∑ j, m i j) ((n : ℚ) - 1)

/-- The cost table handed to Floyd-Warshall (App.tsx lines 83-94).
The source first assigns `dist[i][i] = 0` and then runs the row loop
`if (matrix[i][j] > 0) dist[i][j] = 1 / matrix[i][j]`, which also visits
`j = i`; hence a positive diagonal entry overwrites the `0`. -/
def distInit (n : ℕ) (m : Fin n → Fin n → ℚ) : Fin n → Fin n → QDist :=
  fun i j =>
    if 0 < m i j then QDist.fin (1 / m i j)
    else if i = j then QDist.fin 0 else QDist.inf

/-- The next-hop table initialisation (App.tsx lines 84, 91): `next[i][j] = j`
when `matrix[i][j] > 0`, else the sentinel `-1`, modelled as `Option (Fin n)`
with `none` for `-1`. -/
def nextInit (n : ℕ) (m : Fin n → Fin n → ℚ) : Fin n → Fin n → Option (Fin n) :=
  fun i j => if 0 < m i j then some j else none

/-- One relaxation step of the Floyd-Warshall loop body (App.tsx lines
100-103): if `dist[i][k] + dist[k][j] < dist[i][j]`, update that entry of
`dist` and set `next[i][j] = next[i][k]`. -/
def fwRelax (n : ℕ)
    (st : (Fin n → Fin n → QDist) × (Fin n → Fin n → Option (Fin n)))
    (k i j : Fin n) :
    (Fin n → Fin n → QDist) × (Fin n → Fin n → Option (Fin n)) :=
  if QDist.lt (QDist.add (st.1 i k) (st.1 k j)) (st.1 i j) then
    (fun a b => if a = i ∧ b = j then QDist.add (st.1 i k) (st.1 k j) else st.1 a b,
     fun a b => if a = i ∧ b = j then st.2 i k else st.2 a b)
  else st

/-- The Floyd-Warshall triple loop (App.tsx lines 97-106), applied to the
initial tables; `k` is the outermost index exactly as in the source, and
the sequential in-place update order is preserved by the left folds. -/
def floydWarshall (n : ℕ) (m : Fin n → Fin n → ℚ) :
    (Fin n → Fin n → QDist) × (Fin n → Fin n → Option (Fin n)) :=
  (List.finRange n).foldl
    (fun st k =>
      (List.finRange n).foldl
        (fun st i =>
          (List.finRange n).foldl (fun st j => fwRelax n st k i j) st)
        st)
    (distInit n m, nextInit n m)

/-- Contribution of one shortest-path distance to the closeness sum:
`1 / dist` for a finite (reachable) distance, `0` when unreachable
(`dist === Infinity` is skipped by the source, App.tsx line 112). -/
def invDist : QDist → ℚ
  | QDist.fin d => 1 / d
  | QDist.inf => 0

/-- Closeness centrality (App.tsx lines 109-117): for node `i`, the sum of
`1 / dist[i][j]` over reachable `j ≠ i`, divided by `n - 1` with JavaScript
division semantics (for `n = 1` this is `0 / 0 = NaN`). -/
def closeness (n : ℕ) (m : Fin n → Fin n → ℚ) : Fin n → JsNum :=
  fun i =>
    jsDiv (∑ j, if i = j then 0 else invDist ((floydWarshall n m).1 i j))
      ((n : ℚ) - 1)

/-- The path walk of the betweenness loop (App.tsx lines 124-130): starting
from `curr = i`, repeatedly step `curr = next[curr][j]`, incrementing the
counter of every intermediate node (`curr ≠ -1`, `curr ≠ j`), stopping at
`j` or at the `-1` sentinel.  The walk is given fuel: a terminating run of
the source loop visits pairwise-distinct nodes, hence performs at most `n`
steps, so fuel `n + 1` reproduces every terminating run. -/
def walk (n : ℕ) (nx : Fin n → Fin n → Option (Fin n)) (j : Fin n) :
    ℕ → Fin n → (Fin n → ℕ) → (Fin n → ℕ)
  | 0, _, bet => bet
  | fuel + 1, curr, bet =>
    if curr = j then bet
    else
      match nx curr j with
      | none => bet
      | some c =>
        walk n nx j fuel c
          (if c = j then bet else Function.update bet c (bet c + 1))

/-- The raw betweenness counters (App.tsx lines 121-132): for every ordered
pair `(i, j)` with `i ≠ j`, walk the reconstructed shortest path from `i`
to `j` and count the intermediate nodes. -/
def betCounts (n : ℕ) (nx : Fin n → Fin n → Option (Fin n)) : Fin n → ℕ :=
  (List.finRange n).foldl
    (fun bet i =>
      (List.finRange n).foldl
        (fun bet j => if i = j then bet else walk n nx j (n + 1) i bet)
        bet)
    (fun _ => 0)

/-- Normalised betweenness (App.tsx lines 133-135): every counter is
divided by `Math.max(...betweenness) || 1`, i.e. by the maximum counter,
or by `1` when the maximum is `0`. -/
def betweenness (n : ℕ) (m : Fin n → Fin n → ℚ) : Fin n → ℚ :=
  fun i =>
    let c := betCounts n (floydWarshall n m).2
    let mx := Finset.univ.sup c
    (c i : ℚ) / ((if mx = 0 then 1 else mx : ℕ) : ℚ)

/-- One power-iteration step of the eigenvector loop body (App.tsx lines
139-152): multiply the matrix by the current vector, then divide by the
Euclidean norm of the product when that norm is positive, otherwise keep
the current vector. -/
noncomputable def powerStep (n : ℕ) (m : Fin n → Fin n → ℚ)
    (v : Fin n → ℝ) : Fin n → ℝ :=
  let newEv : Fin n → ℝ := fun i => ∑ j, (m i j : ℝ) * v j
  let norm : ℝ := Real.sqrt (∑ i, newEv i ^ 2)
  if 0 < norm then fun i => newEv i / norm else v

/-- Eigenvector centrality (App.tsx lines 70, 138-152): 50 power-iteration
steps starting from the uniform vector `1 / Math.sqrt(n)`. -/
noncomputable def eigenvector (n : ℕ) (m : Fin n → Fin n → ℚ) : Fin n → ℝ :=
  (powerStep n m)^[50] (fun _ => 1 / Real.sqrt n)

/-- The concrete 3-node matrix `[[1, 0.8, 0], [0.8, 1, 0.5], [0, 0.5, 1]]`
of the specification's path-graph scenario. -/
def M3 : Fin 3 → Fin 3 → ℚ :=
  fun i j => (([[1, 4/5, 0], [4/5, 1, 1/2], [0, 1/2, 1]].getD i.val []).getD j.val 0)

/-- The 1×1 matrix `[[1]]`. -/
def M1 : Fin 1 → Fin 1 → ℚ := fun _ _ => 1

/-- The threshold filter applied to the raw matrix before it reaches either
engine (App.tsx lines 1270-1276): entries below the similarity threshold
are forced to `0`, entries at or above it are kept. -/
def filteredMatrix (n : ℕ) (t : ℚ) (m : Fin n → Fin n → ℚ) :
    Fin n → Fin n → ℚ :=
  fun i j => if m i j ≥ t then m i j else 0

/-- The attraction-loop edge test of the layout simulator (App.tsx line
314): an edge exerts attraction exactly when `matrix[i][j] > threshold`. -/
def attractionPresent (n : ℕ) (t : ℚ) (m : Fin n → Fin n → ℚ)
    (i j : Fin n) : Prop :=
  m i j > t

instance (n : ℕ) (t : ℚ) (m : Fin n → Fin n → ℚ) (i j : Fin n) :
    Decidable (attractionPresent n t m i j) :=
  inferInstanceAs (Decidable (_ > _))

/-- The damping constant of the integrator (App.tsx line 297). -/
def damping : ℚ := 3/5

/-- The canvas padding of the position clamp (App.tsx line 299). -/
def padding : ℚ := 40

/-- One axis of the per-node integration and clamping step (App.tsx lines
329-334): `v = (v + f) * damping`, `p = p + v`, then
`p = Math.max(padding, Math.min(size - padding, p))`.  Returns the clamped
position and the new velocity. -/
def integrateAxis (size p v f : ℚ) : ℚ × ℚ :=
  let vNew := (v + f) * damping
  let pNew := p + vNew
  (max padding (min (size - padding) pNew), vNew)

/-- Per-node layout state: position and velocity (App.tsx lines 220-227). -/
structure SimNode : Type where
  x : ℚ
  y : ℚ
  vx : ℚ
  vy : ℚ
deriving DecidableEq

/-- The view transform: pan offset and zoom scale (App.tsx line 215). -/
structure ViewTransform : Type where
  x : ℚ
  y : ℚ
  k : ℚ
deriving DecidableEq

/-- The state of the `ForceGraph` component that the interaction handlers
can reach: the view transform, the drag bookkeeping, and the node
positions/velocities (App.tsx lines 215-227). -/
structure GraphState : Type where
  transform : ViewTransform
  isDragging : Bool
  lastPos : ℚ × ℚ
  positions : List SimNode
deriving DecidableEq

/-- The wheel-zoom handler (App.tsx lines 230-235): multiplies the scale by
`1 + (-deltaY) * 0.001`, clamped to `[0.1, 5]`; pan and positions are not
touched. -/
def handleWheel (deltaY : ℚ) (s : GraphState) : GraphState :=
  { s with transform :=
      { s.transform with
        k := max (1/10) (min 5 (s.transform.k * (1 + (-deltaY) * (1/1000)))) } }

/-- The mouse-down handler (App.tsx lines 237-240): starts a drag. -/
def handleMouseDown (clientX clientY : ℚ) (s : GraphState) : GraphState :=
  { s with isDragging := true, lastPos := (clientX, clientY) }

/-- The drag-pan handler (App.tsx lines 242-248): while dragging, adds the
cursor delta to the pan offset and records the cursor position. -/
def handleMouseMove (clientX clientY : ℚ) (s : GraphState) : GraphState :=
  if s.isDragging then
    { s with
      transform :=
        { s.transform with
          x := s.transform.x + (clientX - s.lastPos.1),
          y := s.transform.y + (clientY - s.lastPos.2) },
      lastPos := (clientX, clientY) }
  else s

/-- The zoom-in button handler (App.tsx line 252). -/
def handleZoomIn (s : GraphState) : GraphState :=
  { s with transform := { s.transform with k := min 5 (s.transform.k * (6/5)) } }

/-- The zoom-out button handler (App.tsx line 253). -/
def handleZoomOut (s : GraphState) : GraphState :=
  { s with transform := { s.transform with k := max (1/10) (s.transform.k / (6/5)) } }

/-- The reset button handler (App.tsx line 254). -/
def handleReset (s : GraphState) : GraphState :=
  { s with transform := { x := 0, y := 0, k := 1 } }

/-- The fit button handler (App.tsx lines 255-258). -/
def handleFit (s : GraphState) : GraphState :=
  { s with transform := { x := 0, y := 0, k := 4/5 } }

/-- The 2×2 identity-like matrix `[[1, 0], [0, 1]]`: off-diagonal entries
all `0`, diagonal entries the conventional `1.0`. -/
def I2 : Fin 2 → Fin 2 → ℚ := fun i j => if i = j then 1 else 0

/-- The 2×2 all-zero matrix. -/
def Z2 : Fin 2 → Fin 2 → ℚ := fun _ _ => 0

/-- The 1×1 matrix `[[1]]` viewed as weight data for the layout engine and
the eigenvector witness. -/
def O1 : Fin 1 → Fin 1 → ℚ := fun _ _ => 1

/-- The 1×1 matrix `[[3/4]]` used as the threshold-monotonicity witness. -/
def W1 : Fin 1 → Fin 1 → ℚ := fun _ _ => 3/4

/-!  ## Helper lemmas -/

/-- A left fold whose step function fixes the initial accumulator returns
the initial accumulator. -/
theorem foldl_id {α : Type _} {β : Type _} (f : α → β → α) (l : List β)
    (a : α) (h : ∀ b, f a b = a) : l.foldl f a = a := by
  induction l with
  | nil => rfl
  | cons x xs ih => rw [List.foldl_cons, h x]; exact ih

/-- On an all-zero matrix the initial cost table is `0` on the diagonal
and `Infinity` elsewhere. -/
theorem distInit_zeroM (n : ℕ) (m : Fin n → Fin n → ℚ) (hm : ∀ i j, m i j = 0) :
    distInit n m = fun i j => if i = j then QDist.fin 0 else QDist.inf := by
  funext i j
  simp [distInit, hm]

/-- On an all-zero matrix the initial next-hop table is all sentinels. -/
theorem nextInit_zeroM (n : ℕ) (m : Fin n → Fin n → ℚ) (hm : ∀ i j, m i j = 0) :
    nextInit n m = fun _ _ => none := by
  funext i j
  simp [nextInit, hm]

/-- On an all-zero matrix the Floyd-Warshall loop never relaxes anything:
the tables it returns are the initial ones. -/
theorem floydWarshall_zeroM (n : ℕ) (m : Fin n → Fin n → ℚ)
    (hm : ∀ i j, m i j = 0) :
    floydWarshall n m =
      ((fun i j => if i = j then QDist.fin 0 else QDist.inf : Fin n → Fin n → QDist),
       (fun _ _ => none : Fin n → Fin n → Option (Fin n))) := by
  unfold floydWarshall
  rw [distInit_zeroM n m hm, nextInit_zeroM n m hm]
  have hrelax : ∀ k i j,
      fwRelax n
        ((fun i j => if i = j then QDist.fin 0 else QDist.inf : Fin n → Fin n → QDist),
         (fun _ _ => none : Fin n → Fin n → Option (Fin n))) k i j =
        ((fun i j => if i = j then QDist.fin 0 else QDist.inf : Fin n → Fin n → QDist),
         (fun _ _ => none : Fin n → Fin n → Option (Fin n))) := by
    intro k i j
    by_cases hik : i = k
    · subst hik
      by_cases hij : i = j
      · subst hij
        simp [fwRelax, QDist.add, QDist.lt]
      · simp [fwRelax, hij, QDist.add, QDist.lt]
    · simp [fwRelax, hik, QDist.add, QDist.lt]
  refine foldl_id _ _ _ fun k => ?_
  refine foldl_id _ _ _ fun i => ?_
  exact foldl_id _ _ _ fun j => hrelax k i j

/-- On an all-zero matrix every power-iteration step keeps the vector
unchanged: the matrix-vector product is zero, its norm is zero, and the
zero-norm guard skips the normalisation. -/
theorem powerStep_zeroM (n : ℕ) (m : Fin n → Fin n → ℚ)
    (hm : ∀ i j, m i j = 0) (v : Fin n → ℝ) : powerStep n m v = v := by
  simp [powerStep, hm]

/-- Each power-iteration step preserves a unit sum of squares. -/
theorem sum_sq_powerStep (n : ℕ) (m : Fin n → Fin n → ℚ) (v : Fin n → ℝ)
    (h : ∑ i, v i ^ 2 = 1) : ∑ i, powerStep n m v i ^ 2 = 1 := by
  dsimp only [powerStep]
  split
  case isTrue hpos =>
    simp only [div_pow]
    rw [← Finset.sum_div,
      Real.sq_sqrt (Finset.sum_nonneg fun i _ => sq_nonneg _)]
    exact div_self (ne_of_gt (Real.sqrt_pos.mp hpos))
  case isFalse => exact h

/-- The uniform initial vector has a unit sum of squares for `n ≥ 1`. -/
theorem sum_sq_init (n : ℕ) (hn : 0 < n) :
    ∑ _i : Fin n, (1 / Real.sqrt n) ^ 2 = 1 := by
  rw [Finset.sum_const, Finset.card_univ, Fintype.card_fin, div_pow, one_pow,
    Real.sq_sqrt (by positivity : (0:ℝ) ≤ (n : ℝ)), nsmul_eq_mul]
  exact mul_one_div_cancel (by exact_mod_cast hn.ne')

/-- Each power-iteration step preserves entrywise non-negativity when the
matrix is entrywise non-negative. -/
theorem powerStep_nonneg (n : ℕ) (m : Fin n → Fin n → ℚ) (v : Fin n → ℝ)
    (hm : ∀ i j, 0 ≤ m i j) (hv : ∀ i, 0 ≤ v i) :
    ∀ i, 0 ≤ powerStep n m v i := by
  intro i
  dsimp only [powerStep]
  split
  case isTrue =>
    exact div_nonneg
      (Finset.sum_nonneg fun j _ =>
        mul_nonneg (by exact_mod_cast hm i j) (hv j))
      (Real.sqrt_nonneg _)
  case isFalse => exact hv i

/-!  ## Claims -/

/-- Claim C1, counterexample: on the 3-node path matrix
`[[1, 0.8, 0], [0.8, 1, 0.5], [0, 0.5, 1]]`, node 0 does not have the
lowest closeness: node 2's closeness `21/52` is strictly below node 0's
`36/65` (node 2 sits behind the weak `0.5` edge, so it is the farthest
node, not node 0). -/
theorem closeness_node0_not_lowest :
    closeness 3 M3 2 = JsNum.num (21/52) ∧
    closeness 3 M3 0 = JsNum.num (36/65) ∧
    (21/52 : ℚ) < 36/65 := by
  decide

/-- Claim C1, amended: on the 3-node path matrix, node 1 has the strictly
highest betweenness (`1` against `0` for nodes 0 and 2), and node 2 — not
node 0 — has the strictly lowest closeness
(`21/52 < 36/65 < 13/20`). -/
theorem path3_betweenness_closeness_ranks :
    betweenness 3 M3 1 = 1 ∧ betweenness 3 M3 0 = 0 ∧ betweenness 3 M3 2 = 0 ∧
    closeness 3 M3 0 = JsNum.num (36/65) ∧
    closeness 3 M3 1 = JsNum.num (13/20) ∧
    closeness 3 M3 2 = JsNum.num (21/52) ∧
    (21/52 : ℚ) < 36/65 ∧ (36/65 : ℚ) < 13/20 := by
  decide

/-- Claim C2, counterexample: the 2×2 matrix `[[1, 0], [0, 1]]` has all
off-diagonal entries `0` and the conventional `1.0` diagonal, yet degree
centrality of node 0 is `1`, not `0`: the degree loop sums the whole row,
self-entry included, before dividing by `n - 1`. -/
theorem degree_identity_nonzero :
    degree 2 I2 0 = JsNum.num 1 ∧ degree 2 I2 0 ≠ JsNum.num 0 := by
  decide

/-- Claim C2, amended: for every `n ≥ 2` and every n×n matrix all of whose
entries are `0` (off-diagonal and diagonal alike), every node's degree,
closeness and betweenness are `0` and the eigenvector array is uniformly
`1 / sqrt n`. -/
theorem zero_matrix_centrality (n : ℕ) (m : Fin n → Fin n → ℚ)
    (hn : 2 ≤ n) (hm : ∀ i j, m i j = 0) :
    (∀ i, degree n m i = JsNum.num 0) ∧
    (∀ i, closeness n m i = JsNum.num 0) ∧
    (∀ i, betweenness n m i = 0) ∧
    (∀ i, eigenvector n m i = 1 / Real.sqrt n) := by
  have hn1 : ((n : ℚ) - 1) ≠ 0 := by
    have h2 : (2 : ℚ) ≤ (n : ℚ) := by exact_mod_cast hn
    linarith
  refine ⟨?_, ?_, ?_, ?_⟩
  · intro i
    unfold degree
    have hs : ∑ j, m i j = 0 := by simp [hm]
    rw [hs]
    unfold jsDiv
    rw [if_neg hn1, zero_div]
  · intro i
    unfold closeness
    rw [floydWarshall_zeroM n m hm]
    have hs : (∑ j, if i = j then 0
        else invDist (if i = j then QDist.fin 0 else QDist.inf)) = (0:ℚ) := by
      apply Finset.sum_eq_zero
      intro j _
      by_cases h : i = j <;> simp [h, invDist]
    rw [hs]
    unfold jsDiv
    rw [if_neg hn1, zero_div]
  · intro i
    unfold betweenness
    rw [floydWarshall_zeroM n m hm]
    have hwalk : ∀ (j : Fin n) (fuel : ℕ) (curr : Fin n) (bet : Fin n → ℕ),
        curr ≠ j →
        walk n (fun _ _ => none) j (fuel + 1) curr bet = bet := by
      intro j fuel curr bet h
      simp [walk, h]
    have hcounts : betCounts n (fun _ _ => none) = fun _ => 0 := by
      unfold betCounts
      refine foldl_id _ _ _ fun a => ?_
      refine foldl_id _ _ _ fun b => ?_
      by_cases h : a = b
      · simp [h]
      · rw [if_neg h]
        exact hwalk b n a (fun _ => 0) h
    simp [hcounts]
  · intro i
    have hfix : powerStep n m (fun _ => 1 / Real.sqrt n) =
        fun _ => 1 / Real.sqrt n := powerStep_zeroM n m hm _
    have : eigenvector n m = fun _ => 1 / Real.sqrt n :=
      Function.iterate_fixed hfix 50
    rw [this]

/-- Claim C2, witness: at `n = 2` and the all-zero 2×2 matrix, the amended
statement is realised. -/
theorem zero_matrix_centrality_witness :
    degree 2 Z2 0 = JsNum.num 0 ∧ eigenvector 2 Z2 0 = 1 / Real.sqrt 2 := by
  have h := zero_matrix_centrality 2 Z2 (by decide) (fun _ _ => rfl)
  exact ⟨h.1 0, (h.2.2.2 0).trans (by norm_num)⟩

/-- Claim C3: at `n = 1` with matrix `[[1]]` the degree and closeness
computations divide by `n - 1 = 0`: degree of the single node is
`1 / 0 = Infinity` and closeness is `0 / 0 = NaN`, contradicting the
specified degenerate-case behaviour (degree and closeness `0`, no division
by zero). -/
theorem n1_degree_inf_closeness_nan :
    degree 1 M1 0 = JsNum.posInf ∧ closeness 1 M1 0 = JsNum.nan := by
  decide

/-- Claim C4: for the matrix `[[1]]` the cost table handed to
Floyd-Warshall has self-distance `1`, not `0`: the row loop revisits
`j = i` and overwrites the previously assigned `dist[i][i] = 0` with
`1 / matrix[i][i]` whenever the diagonal entry is positive. -/
theorem selfdist_overwritten :
    distInit 1 M1 0 0 = QDist.fin 1 ∧ distInit 1 M1 0 0 ≠ QDist.fin 0 := by
  decide

/-- Claim C5: for every matrix, every normalised betweenness value lies in
`[0, 1]`, and whenever some node has nonzero betweenness, some node's
betweenness is exactly `1` (the counters are divided by the maximum
counter, or by `1` when all counters are zero). -/
theorem betweenness_normalized (n : ℕ) (m : Fin n → Fin n → ℚ) :
    (∀ i, 0 ≤ betweenness n m i ∧ betweenness n m i ≤ 1) ∧
    ((∃ i, betweenness n m i ≠ 0) → ∃ i, betweenness n m i = 1) := by
  set c := betCounts n (floydWarshall n m).2 with hc
  set mx := Finset.univ.sup c with hmx
  set D : ℕ := if mx = 0 then 1 else mx with hD
  have hbet : ∀ i, betweenness n m i = (c i : ℚ) / (D : ℚ) := fun i => rfl
  have hDpos : 0 < D := by
    rw [hD]
    split
    · exact one_pos
    · exact Nat.pos_of_ne_zero (by assumption)
  have hle : ∀ i, c i ≤ D := by
    intro i
    have h := Finset.le_sup (f := c) (Finset.mem_univ i)
    rw [← hmx] at h
    rw [hD]
    split
    · omega
    · omega
  constructor
  · intro i
    rw [hbet i]
    refine ⟨div_nonneg (Nat.cast_nonneg _) (Nat.cast_nonneg _), ?_⟩
    rw [div_le_one (by exact_mod_cast hDpos)]
    exact_mod_cast hle i
  · rintro ⟨i, hi⟩
    rw [hbet i] at hi
    have hci : c i ≠ 0 := by
      intro h
      rw [h] at hi
      simp at hi
    have hmx0 : mx ≠ 0 := by
      have h := Finset.le_sup (f := c) (Finset.mem_univ i)
      rw [← hmx] at h
      omega
    obtain ⟨j, _, hj⟩ :=
      Finset.exists_mem_eq_sup (Finset.univ : Finset (Fin n))
        ⟨i, Finset.mem_univ i⟩ c
    have hcj : c j ≠ 0 := by
      rw [hmx, hj] at hmx0
      exact hmx0
    refine ⟨j, ?_⟩
    rw [hbet j, hD, if_neg hmx0, hmx, hj]
    exact div_self (by exact_mod_cast hcj)

/-- Claim C5, witness: on the 3-node path matrix node 1 has nonzero
betweenness and some node's betweenness is exactly `1`. -/
theorem betweenness_normalized_witness :
    (0 ≤ betweenness 3 M3 1 ∧ betweenness 3 M3 1 ≤ 1) ∧
    ∃ i, betweenness 3 M3 i = 1 :=
  ⟨(betweenness_normalized 3 M3).1 1,
   (betweenness_normalized 3 M3).2 ⟨1, by decide⟩⟩

/-- Claim C6: for every matrix and every `n ≥ 1`, the eigenvector array
returned after the 50 power-iteration steps has Euclidean norm exactly
`1`: the initial uniform vector has norm `1` and each step either
L2-normalises the new vector (positive norm) or keeps the previous vector
(zero norm). -/
theorem eigenvector_norm_one (n : ℕ) (m : Fin n → Fin n → ℚ) (hn : 0 < n) :
    Real.sqrt (∑ i, eigenvector n m i ^ 2) = 1 := by
  have key : ∀ k,
      ∑ i, ((powerStep n m)^[k] (fun _ => 1 / Real.sqrt n)) i ^ 2 = 1 := by
    intro k
    induction k with
    | zero => simpa using sum_sq_init n hn
    | succ k ih =>
      rw [Function.iterate_succ_apply']
      exact sum_sq_powerStep n m _ ih
  unfold eigenvector
  rw [key 50, Real.sqrt_one]

/-- Claim C6, witness: at `n = 1` with matrix `[[1]]` the returned
eigenvector has Euclidean norm `1`. -/
theorem eigenvector_norm_one_witness :
    0 < 1 ∧ Real.sqrt (∑ i : Fin 1, eigenvector 1 O1 i ^ 2) = 1 :=
  ⟨Nat.one_pos, eigenvector_norm_one 1 O1 Nat.one_pos⟩

/-- Claim C7: raising the threshold never adds an edge. For thresholds
`0 ≤ t1 < t2`: an edge exerting attraction at `t2` (weight strictly above
`t2`, App.tsx line 314) also exerts it at `t1`; an entry surviving the
client-side filter at `t2` (App.tsx line 1274) also survives at `t1`; and
an edge of the filtered matrix exerting attraction at `t2` also does so
after filtering at `t1`. -/
theorem threshold_edge_monotone (n : ℕ) (m : Fin n → Fin n → ℚ)
    (i j : Fin n) (t1 t2 : ℚ) (h0 : 0 ≤ t1) (h12 : t1 < t2) :
    (attractionPresent n t2 m i j → attractionPresent n t1 m i j) ∧
    (filteredMatrix n t2 m i j ≠ 0 → filteredMatrix n t1 m i j ≠ 0) ∧
    (attractionPresent n t2 (filteredMatrix n t2 m) i j →
      attractionPresent n t1 (filteredMatrix n t1 m) i j) := by
  unfold attractionPresent filteredMatrix
  refine ⟨fun h => lt_trans h12 h, ?_, ?_⟩
  · intro h
    by_cases h2 : m i j ≥ t2
    · rw [if_pos h2] at h
      rw [if_pos (le_trans (le_of_lt h12) h2)]
      exact h
    · rw [if_neg h2] at h
      exact absurd rfl h
  · intro h
    by_cases h2 : m i j ≥ t2
    · rw [if_pos h2] at h
      rw [if_pos (le_trans (le_of_lt h12) h2)]
      exact lt_trans h12 h
    · rw [if_neg h2] at h
      linarith

/-- Claim C7, witness: with thresholds `0 < 1/2` and the single weight
`3/4`, attraction at the higher threshold transfers to the lower one. -/
theorem threshold_edge_monotone_witness :
    (0:ℚ) ≤ 0 ∧ (0:ℚ) < 1/2 ∧ attractionPresent 1 0 W1 0 0 :=
  ⟨le_refl 0, by decide,
   (threshold_edge_monotone 1 W1 0 0 0 (1/2) (le_refl 0) (by decide)).1
     (by decide)⟩

/-- Claim C8: after the integration step of a simulation tick, each
coordinate is clamped into the padded rectangle `[padding, size - padding]`
of the canvas, whatever net force `f` was accumulated in that tick
(the rectangle being non-degenerate, `2 * padding ≤ size`). -/
theorem tick_positions_clamped (width height x y vx vy fx fy : ℚ)
    (hw : 2 * padding ≤ width) (hh : 2 * padding ≤ height) :
    padding ≤ (integrateAxis width x vx fx).1 ∧
    (integrateAxis width x vx fx).1 ≤ width - padding ∧
    padding ≤ (integrateAxis height y vy fy).1 ∧
    (integrateAxis height y vy fy).1 ≤ height - padding := by
  have hax : ∀ size p v f : ℚ, 2 * padding ≤ size →
      padding ≤ (integrateAxis size p v f).1 ∧
      (integrateAxis size p v f).1 ≤ size - padding := by
    intro size p v f h
    have h1 : (integrateAxis size p v f).1 =
        max padding (min (size - padding) (p + (v + f) * damping)) := rfl
    rw [h1]
    exact ⟨le_max_left _ _, max_le (by linarith) (min_le_left _ _)⟩
  obtain ⟨ha, hb⟩ := hax width x vx fx hw
  obtain ⟨hc, hd⟩ := hax height y vy fy hh
  exact ⟨ha, hb, hc, hd⟩

/-- Claim C8, witness: an 800×600 canvas and a huge transient force still
leave the clamped x-coordinate inside `[40, 760]`. -/
theorem tick_positions_clamped_witness :
    2 * padding ≤ (800:ℚ) ∧
    padding ≤ (integrateAxis 800 (-5000) 20 1000000).1 ∧
    (integrateAxis 800 (-5000) 20 1000000).1 ≤ 800 - padding :=
  ⟨by decide,
   (tick_positions_clamped 800 600 (-5000) 0 20 0 1000000 0
      (by decide) (by decide)).1,
   (tick_positions_clamped 800 600 (-5000) 0 20 0 1000000 0
      (by decide) (by decide)).2.1⟩

/-- Claim C9: the viewport interaction handlers — wheel zoom, drag pan,
zoom-in, zoom-out, reset and fit — change only the view transform: the
node positions and velocities stored in the component state are untouched
by every one of them. -/
theorem view_handlers_preserve_positions (s : GraphState) (d cx cy : ℚ) :
    (handleWheel d s).positions = s.positions ∧
    (handleMouseMove cx cy s).positions = s.positions ∧
    (handleZoomIn s).positions = s.positions ∧
    (handleZoomOut s).positions = s.positions ∧
    (handleReset s).positions = s.positions ∧
    (handleFit s).positions = s.positions := by
  refine ⟨rfl, ?_, rfl, rfl, rfl, rfl⟩
  unfold handleMouseMove
  split <;> rfl

/-- Claim C10: for every matrix with non-negative entries, every entry of
the returned eigenvector array is non-negative: the initial vector is
positive, multiplication by a non-negative matrix preserves
non-negativity, and each normalisation divides by a positive norm or
keeps the vector. -/
theorem eigenvector_nonneg (n : ℕ) (m : Fin n → Fin n → ℚ)
    (hm : ∀ i j, 0 ≤ m i j) : ∀ i, 0 ≤ eigenvector n m i := by
  have key : ∀ k i,
      0 ≤ ((powerStep n m)^[k] (fun _ => 1 / Real.sqrt n)) i := by
    intro k
    induction k with
    | zero =>
      intro i
      exact div_nonneg zero_le_one (Real.sqrt_nonneg _)
    | succ k ih =>
      intro i
      rw [Function.iterate_succ_apply']
      exact powerStep_nonneg n m _ hm ih i
  unfold eigenvector
  exact key 50

/-- Claim C10, witness: the matrix `[[1]]` is entrywise non-negative and
the returned eigenvector entry is non-negative. -/
theorem eigenvector_nonneg_witness :
    (0:ℚ) ≤ O1 0 0 ∧ 0 ≤ eigenvector 1 O1 0 :=
  ⟨zero_le_one, eigenvector_nonneg 1 O1 (fun _ _ => zero_le_one) 0⟩
